import Mathlib

set_option maxHeartbeats 1000000

/-!
Shallow embedding of `src/lexer.py`: a lexical analyzer producing
identifier tokens and integer/real numeric tokens, with 1-based
line/column tracking and single-character lookahead.

The Python `while` loops are embedded as structurally recursive
functions over an explicit fuel argument; the public wrappers supply
`texto.length + 1` fuel, which is proven sufficient, so the wrappers
compute exactly what the source loops compute.
-/

/-- Embeds Python `str.isdigit` on the ASCII range: the characters `0`-`9`. -/
def esDigito (c : Char) : Bool := decide (48 ≤ c.toNat ∧ c.toNat ≤ 57)

/-- Embeds Python `str.isalpha` on the ASCII range: `A`-`Z` and `a`-`z`. -/
def esAlpha (c : Char) : Bool :=
  decide ((65 ≤ c.toNat ∧ c.toNat ≤ 90) ∨ (97 ≤ c.toNat ∧ c.toNat ≤ 122))

/-- Embeds Python `str.isalnum` on the ASCII range: letters and digits. -/
def esAlnum (c : Char) : Bool := esAlpha c || esDigito c

/-- Embeds Python `str.isspace` on the ASCII range: tab, newline, vertical
tab, form feed, carriage return (codes 9-13), the separator control
characters (codes 28-31) and the space (code 32). -/
def esEspacio (c : Char) : Bool :=
  decide (c.toNat = 32 ∨ (9 ≤ c.toNat ∧ c.toNat ≤ 13) ∨ (28 ≤ c.toNat ∧ c.toNat ≤ 31))

/-- The loop condition of `leer_identificador`: `isalnum() or == "_"`. -/
def esIdent (c : Char) : Bool := esAlnum c || c == '_'

/-- Numeric value of a decimal digit character. -/
def valorDigito (c : Char) : ℕ := c.toNat - 48

/-- Embeds Python `int(...)` applied to a nonempty string of decimal
digits: the exact (arbitrary-precision) integer the digits denote. -/
def pyInt (l : List Char) : ℕ := l.foldl (fun n c => 10 * n + valorDigito c) 0

/-- Embeds Python `float(...)` applied to a lexeme of the shape `digits`
or `digits.digits`, as the exact decimal rational value (IEEE-754
rounding is not modelled). -/
def pyFloat (l : List Char) : ℚ :=
  let ip := l.takeWhile (fun c => !(c == '.'))
  match l.dropWhile (fun c => !(c == '.')) with
  | [] => (pyInt ip : ℚ)
  | _ :: fp => (pyInt ip : ℚ) + (pyInt fp : ℚ) / (10 : ℚ) ^ fp.length

/-- Token kinds: the source uses the strings `"ENTERO"`, `"REAL"`, `"ID"`. -/
inductive Tipo where
  | ENTERO : Tipo
  | REAL : Tipo
  | ID : Tipo
deriving DecidableEq, Repr

/-- The dynamically typed `valor` field of a token: an `int` for `ENTERO`,
a `float` (modelled exactly, see `pyFloat`) for `REAL`, a string for `ID`. -/
inductive Valor where
  | int : ℕ → Valor
  | real : ℚ → Valor
  | str : List Char → Valor
deriving DecidableEq, Repr

/-- Embeds the `Token` class: kind, value, and the 1-based position of the
token's first character. -/
structure Token where
  tipo : Tipo
  valor : Valor
  linea : ℕ
  columna : ℕ
deriving DecidableEq, Repr

/-- The data carried by the exception raised by `AnalizadorLexico.error`:
the offending character and the position at the time of the raise. -/
structure LexError where
  caracter : Char
  linea : ℕ
  columna : ℕ
deriving DecidableEq, Repr

/-- Embeds the `AnalizadorLexico` instance state. -/
structure AnalizadorLexico where
  texto : List Char
  pos : ℕ
  linea : ℕ
  columna : ℕ
  tokens : List Token
deriving DecidableEq, Repr

/-- Embeds `AnalizadorLexico.__init__`. -/
def AnalizadorLexico.init (texto : List Char) : AnalizadorLexico :=
  ⟨texto, 0, 1, 1, []⟩

/-- Embeds `AnalizadorLexico.caracter_actual`. -/
def AnalizadorLexico.caracter_actual (a : AnalizadorLexico) : Option Char :=
  a.texto[a.pos]?

/-- Embeds `AnalizadorLexico.peek`. -/
def AnalizadorLexico.peek (a : AnalizadorLexico) : Option Char :=
  a.texto[a.pos + 1]?

/-- Embeds `AnalizadorLexico.avanzar`. -/
def AnalizadorLexico.avanzar (a : AnalizadorLexico) : AnalizadorLexico :=
  if h : a.pos < a.texto.length then
    if a.texto.get ⟨a.pos, h⟩ = '\n' then
      { a with linea := a.linea + 1, columna := 1, pos := a.pos + 1 }
    else
      { a with columna := a.columna + 1, pos := a.pos + 1 }
  else a

/-- Embeds `AnalizadorLexico.error`: the exception carries the offending
character and the line/column at the time of the raise. -/
def AnalizadorLexico.error (a : AnalizadorLexico) (caracter : Char) : LexError :=
  ⟨caracter, a.linea, a.columna⟩

/-- Embeds the `while` loop of `saltar_espacios`; the fuel argument only
makes the recursion structural, and `saltar_espacios` supplies enough of
it for the loop to run to completion. -/
def AnalizadorLexico.saltar_espacios_fuel : ℕ → AnalizadorLexico → AnalizadorLexico
  | 0, a => a
  | n + 1, a =>
    match a.caracter_actual with
    | some c => if esEspacio c then AnalizadorLexico.saltar_espacios_fuel n a.avanzar else a
    | none => a

/-- Embeds `AnalizadorLexico.saltar_espacios`. -/
def AnalizadorLexico.saltar_espacios (a : AnalizadorLexico) : AnalizadorLexico :=
  AnalizadorLexico.saltar_espacios_fuel (a.texto.length + 1) a

/-- Embeds the character-accumulating `while` loops of `leer_numero` and
`leer_identificador` (`resultado += self.caracter_actual(); self.avanzar()`),
parameterized by the loop condition; fuel as in `saltar_espacios_fuel`. -/
def AnalizadorLexico.leer_mientras_fuel :
    ℕ → (Char → Bool) → AnalizadorLexico → List Char → List Char × AnalizadorLexico
  | 0, _, a, resultado => (resultado, a)
  | n + 1, p, a, resultado =>
    match a.caracter_actual with
    | some c =>
      if p c then AnalizadorLexico.leer_mientras_fuel n p a.avanzar (resultado ++ [c])
      else (resultado, a)
    | none => (resultado, a)

/-- The accumulating `while` loops of the source, with sufficient fuel. -/
def AnalizadorLexico.leer_mientras (p : Char → Bool) (a : AnalizadorLexico)
    (resultado : List Char) : List Char × AnalizadorLexico :=
  AnalizadorLexico.leer_mientras_fuel (a.texto.length + 1) p a resultado

/-- Embeds `AnalizadorLexico.leer_numero`. -/
def AnalizadorLexico.leer_numero (a : AnalizadorLexico) : Token × AnalizadorLexico :=
  let col_inicio := a.columna
  let linea_inicio := a.linea
  let r1 := AnalizadorLexico.leer_mientras esDigito a []
  match r1.2.caracter_actual, r1.2.peek with
  | some '.', some c =>
    if esDigito c then
      let r2 := AnalizadorLexico.leer_mientras esDigito r1.2.avanzar (r1.1 ++ ['.'])
      (⟨.REAL, .real (pyFloat r2.1), linea_inicio, col_inicio⟩, r2.2)
    else
      (⟨.ENTERO, .int (pyInt r1.1), linea_inicio, col_inicio⟩, r1.2)
  | _, _ => (⟨.ENTERO, .int (pyInt r1.1), linea_inicio, col_inicio⟩, r1.2)

/-- Embeds `AnalizadorLexico.leer_identificador`. -/
def AnalizadorLexico.leer_identificador (a : AnalizadorLexico) :
    Token × AnalizadorLexico :=
  let col_inicio := a.columna
  let linea_inicio := a.linea
  let r := AnalizadorLexico.leer_mientras esIdent a []
  (⟨.ID, .str r.1, linea_inicio, col_inicio⟩, r.2)

/-- Embeds the dispatch `while` loop of `AnalizadorLexico.analizar`;
a `some` first component models the exception raised by `error`.
Fuel as in `saltar_espacios_fuel`. -/
def AnalizadorLexico.analizar_fuel :
    ℕ → AnalizadorLexico → Option LexError × AnalizadorLexico
  | 0, a => (none, a)
  | n + 1, a =>
    match a.caracter_actual with
    | none => (none, a)
    | some c =>
      if esEspacio c then AnalizadorLexico.analizar_fuel n a.saltar_espacios
      else if esDigito c then
        let r := a.leer_numero
        AnalizadorLexico.analizar_fuel n { r.2 with tokens := r.2.tokens ++ [r.1] }
      else if esAlpha c || c == '_' then
        let r := a.leer_identificador
        AnalizadorLexico.analizar_fuel n { r.2 with tokens := r.2.tokens ++ [r.1] }
      else (some (a.error c), a)

/-- Embeds `AnalizadorLexico.analizar`: resets `tokens`, runs the dispatch
loop, and returns the token list (or the raised error) together with the
mutated scanner state. -/
def AnalizadorLexico.analizar (a : AnalizadorLexico) :
    Except LexError (List Token) × AnalizadorLexico :=
  let a0 := { a with tokens := ([] : List Token) }
  let r := AnalizadorLexico.analizar_fuel (a0.texto.length + 1) a0
  match r.1 with
  | some e => (.error e, r.2)
  | none => (.ok r.2.tokens, r.2)

/-- Running the scanner on a text exactly as the source's driver does:
`AnalizadorLexico(texto).analizar()`. -/
def analizarTexto (texto : List Char) : Except LexError (List Token) :=
  (AnalizadorLexico.init texto).analizar.1

/-- The unread remainder of the input. -/
def resto (a : AnalizadorLexico) : List Char := a.texto.drop a.pos

/-- One step of the line/column bookkeeping performed by `avanzar`. -/
def avanzaLC (lc : ℕ × ℕ) (c : Char) : ℕ × ℕ :=
  if c = '\n' then (lc.1 + 1, 1) else (lc.1, lc.2 + 1)

/-- The 1-based line/column coordinates of offset `p` in text `t`. -/
def lineaColumnaEn (t : List Char) (p : ℕ) : ℕ × ℕ :=
  (t.take p).foldl avanzaLC (1, 1)

/-- The strict document order on (line, column) pairs. -/
def ordLC (x y : ℕ × ℕ) : Prop := x.1 < y.1 ∨ (x.1 = y.1 ∧ x.2 < y.2)

/-- What it means for token `tok` to start at offset `p` of text `t`: its
recorded position is the line/column of offset `p`, and the text at `p`
begins with a lexeme of the token's kind whose parse is the token's value. -/
def TokenEn (t : List Char) (p : ℕ) (tok : Token) : Prop :=
  (tok.linea, tok.columna) = lineaColumnaEn t p ∧
  ∃ lex rest, lex ≠ [] ∧ t.drop p = lex ++ rest ∧
    ((tok.tipo = .ENTERO ∧ tok.valor = .int (pyInt lex) ∧ ∀ c ∈ lex, esDigito c = true) ∨
     (∃ I F, tok.tipo = .REAL ∧ tok.valor = .real (pyFloat lex) ∧ lex = I ++ '.' :: F ∧
        I ≠ [] ∧ F ≠ [] ∧ (∀ c ∈ I, esDigito c = true) ∧ (∀ c ∈ F, esDigito c = true)) ∨
     (tok.tipo = .ID ∧ tok.valor = .str lex ∧ (∀ c ∈ lex, esIdent c = true) ∧
        ∀ c, lex.head? = some c → (esAlpha c || c == '_') = true))

/-- Numeric lexemes `[0-9]+(\.[0-9]+)?`, with the fractional part explicit. -/
inductive LexemaNum where
  | entero : List Char → LexemaNum
  | real : List Char → List Char → LexemaNum
deriving DecidableEq, Repr

/-- The character sequence a numeric lexeme stands for. -/
def LexemaNum.txt : LexemaNum → List Char
  | .entero I => I
  | .real I F => I ++ '.' :: F

/-- Well-formedness: nonempty digit runs on both sides of the dot. -/
def LexemaNum.ok : LexemaNum → Prop
  | .entero I => I ≠ [] ∧ ∀ c ∈ I, esDigito c = true
  | .real I F => I ≠ [] ∧ F ≠ [] ∧ (∀ c ∈ I, esDigito c = true) ∧ (∀ c ∈ F, esDigito c = true)

/-- The token kind a numeric lexeme must scan to. -/
def LexemaNum.tipo : LexemaNum → Tipo
  | .entero _ => .ENTERO
  | .real _ _ => .REAL

/-- The token value a numeric lexeme must scan to. -/
def LexemaNum.valor : LexemaNum → Valor
  | .entero I => .int (pyInt I)
  | .real I F => .real (pyFloat (I ++ '.' :: F))

/-- Texts made only of numeric lexemes separated by whitespace. -/
inductive SoloNumeros : List Char → List LexemaNum → Prop
  | nil (w : List Char) (hw : ∀ c ∈ w, esEspacio c = true) : SoloNumeros w []
  | cons (w : List Char) (hw : ∀ c ∈ w, esEspacio c = true) (lx : LexemaNum) (hlx : lx.ok)
      (rest : List Char) (lxs : List LexemaNum)
      (hsep : ∀ c, rest.head? = some c → esEspacio c = true)
      (hrest : SoloNumeros rest lxs) :
      SoloNumeros (w ++ lx.txt ++ rest) (lx :: lxs)

/-! ### Infrastructure lemmas about the cursor primitives -/

theorem caracter_actual_head (a : AnalizadorLexico) :
    a.caracter_actual = (resto a).head? := by
  simp [AnalizadorLexico.caracter_actual, resto, List.head?_drop]

theorem caracter_actual_lt {a : AnalizadorLexico} {c : Char}
    (h : a.caracter_actual = some c) : a.pos < a.texto.length := by
  unfold AnalizadorLexico.caracter_actual at h
  exact (List.getElem?_eq_some.mp h).1

theorem avanzar_some {a : AnalizadorLexico} {c : Char} (h : a.caracter_actual = some c) :
    a.avanzar = { a with pos := a.pos + 1,
                         linea := (avanzaLC (a.linea, a.columna) c).1,
                         columna := (avanzaLC (a.linea, a.columna) c).2 } := by
  obtain ⟨hlt, hv⟩ := List.getElem?_eq_some.mp h
  unfold AnalizadorLexico.avanzar avanzaLC
  rw [dif_pos hlt]
  rw [List.get_eq_getElem, hv]
  by_cases hc : c = '\n' <;> simp [hc]

theorem avanzar_none {a : AnalizadorLexico} (h : a.caracter_actual = none) :
    a.avanzar = a := by
  unfold AnalizadorLexico.caracter_actual at h
  unfold AnalizadorLexico.avanzar
  rw [dif_neg]
  intro hlt
  rw [List.getElem?_eq_getElem hlt] at h
  exact Option.noConfusion h

theorem resto_cons {a : AnalizadorLexico} {c : Char} (h : a.caracter_actual = some c) :
    resto a = c :: resto a.avanzar := by
  obtain ⟨hlt, hv⟩ := List.getElem?_eq_some.mp h
  rw [avanzar_some h]
  unfold resto
  exact hv ▸ List.drop_eq_getElem_cons hlt

theorem resto_none {a : AnalizadorLexico} (h : a.caracter_actual = none) :
    resto a = [] := by
  rw [resto, List.drop_eq_nil_iff]
  unfold AnalizadorLexico.caracter_actual at h
  by_contra hlt
  push_neg at hlt
  rw [List.getElem?_eq_getElem hlt] at h
  exact Option.noConfusion h

theorem drop_takeWhile_length (p : Char → Bool) : ∀ l : List Char,
    l.drop (l.takeWhile p).length = l.dropWhile p := by
  intro l
  induction l with
  | nil => rfl
  | cons c t ih =>
    by_cases hp : p c
    · rw [List.takeWhile_cons_of_pos hp, List.dropWhile_cons_of_pos hp]
      simpa using ih
    · rw [List.takeWhile_cons_of_neg hp, List.dropWhile_cons_of_neg hp]
      rfl

theorem takeWhile_frontera {p : Char → Bool} {I rest : List Char}
    (hI : ∀ c ∈ I, p c = true) (hrest : ∀ c, rest.head? = some c → p c = false) :
    (I ++ rest).takeWhile p = I ∧ (I ++ rest).dropWhile p = rest := by
  have h1 : rest.takeWhile p = [] := by
    cases rest with
    | nil => rfl
    | cons c r => exact List.takeWhile_cons_of_neg (by simp [hrest c rfl])
  have h2 : rest.dropWhile p = rest := by
    cases rest with
    | nil => rfl
    | cons c r => exact List.dropWhile_cons_of_neg (by simp [hrest c rfl])
  rw [List.takeWhile_append_of_pos hI, List.dropWhile_append_of_pos hI, h1, h2, List.append_nil]
  exact ⟨rfl, rfl⟩

theorem foldl_avanzaLC_sin_salto :
    ∀ (l : List Char) (li co : ℕ), (∀ c ∈ l, c ≠ '\n') →
      l.foldl avanzaLC (li, co) = (li, co + l.length) := by
  intro l
  induction l with
  | nil => intro li co _; simp
  | cons c t ih =>
    intro li co h
    have hc : avanzaLC (li, co) c = (li, co + 1) := by
      unfold avanzaLC
      rw [if_neg (h c (by simp))]
    rw [List.foldl_cons, hc, ih li (co + 1) (fun d hd => h d (List.mem_cons_of_mem c hd))]
    exact congrArg (Prod.mk li) (by simp only [List.length_cons]; omega)

theorem esDigito_toNat {c : Char} (h : esDigito c = true) :
    48 ≤ c.toNat ∧ c.toNat ≤ 57 := by
  simpa [esDigito] using h

theorem esDigito_no_salto {c : Char} (h : esDigito c = true) : c ≠ '\n' := by
  intro hc
  subst hc
  exact absurd h (by decide)

theorem esDigito_no_espacio {c : Char} (h : esDigito c = true) : esEspacio c = false := by
  obtain ⟨h1, h2⟩ := esDigito_toNat h
  simp only [esEspacio, decide_eq_false_iff_not]
  omega

theorem esIdent_toNat {c : Char} (h : esIdent c = true) : 48 ≤ c.toNat ∧ c.toNat ≤ 122 := by
  have h95 : ('_').toNat = 95 := by decide
  simp only [esIdent, esAlnum, esAlpha, esDigito, Bool.or_eq_true, beq_iff_eq,
    decide_eq_true_eq] at h
  rcases h with (h | h) | h
  · omega
  · omega
  · subst h; omega

theorem esIdent_no_salto {c : Char} (h : esIdent c = true) : c ≠ '\n' := by
  intro hc
  subst hc
  exact absurd h (by decide)

theorem esIdent_no_espacio {c : Char} (h : esIdent c = true) : esEspacio c = false := by
  obtain ⟨h1, h2⟩ := esIdent_toNat h
  simp only [esEspacio, decide_eq_false_iff_not]
  omega

theorem esDigito_esIdent {c : Char} (h : esDigito c = true) : esIdent c = true := by
  simp [esIdent, esAlnum, h]

theorem esInicioIdent_esIdent {c : Char} (h : (esAlpha c || c == '_') = true) :
    esIdent c = true := by
  rcases Bool.or_eq_true_iff.mp h with h' | h'
  · simp [esIdent, esAlnum, h']
  · simp [esIdent, h']

/-! ### Characterization of the loops -/

theorem leer_mientras_fuel_spec :
    ∀ (n : ℕ) (p : Char → Bool) (a : AnalizadorLexico) (resultado : List Char),
      a.texto.length - a.pos < n →
      AnalizadorLexico.leer_mientras_fuel n p a resultado =
        (resultado ++ (resto a).takeWhile p,
         ⟨a.texto, a.pos + ((resto a).takeWhile p).length,
          (((resto a).takeWhile p).foldl avanzaLC (a.linea, a.columna)).1,
          (((resto a).takeWhile p).foldl avanzaLC (a.linea, a.columna)).2,
          a.tokens⟩) := by
  intro n
  induction n with
  | zero => intro p a resultado h; omega
  | succ n ih =>
    intro p a resultado h
    unfold AnalizadorLexico.leer_mientras_fuel
    split
    · rename_i c hc
      have hlt := caracter_actual_lt hc
      have hav := avanzar_some hc
      have hresto := resto_cons hc
      by_cases hp : p c
      · rw [if_pos hp]
        rw [ih p a.avanzar (resultado ++ [c]) (by rw [hav]; simp; omega)]
        rw [hresto, List.takeWhile_cons_of_pos hp]
        rw [hav]
        simp only [List.foldl_cons, Prod.mk.eta, List.append_assoc, List.singleton_append,
          List.length_cons, Prod.mk.injEq, AnalizadorLexico.mk.injEq, true_and, and_true]
        all_goals omega
      · rw [if_neg hp]
        have htw : (resto a).takeWhile p = [] := by
          rw [hresto]
          exact List.takeWhile_cons_of_neg hp
        simp [htw]
    · rename_i hc
      simp [resto_none hc]

theorem leer_mientras_spec (p : Char → Bool) (a : AnalizadorLexico) (resultado : List Char) :
    AnalizadorLexico.leer_mientras p a resultado =
      (resultado ++ (resto a).takeWhile p,
       ⟨a.texto, a.pos + ((resto a).takeWhile p).length,
        (((resto a).takeWhile p).foldl avanzaLC (a.linea, a.columna)).1,
        (((resto a).takeWhile p).foldl avanzaLC (a.linea, a.columna)).2,
        a.tokens⟩) :=
  leer_mientras_fuel_spec _ p a resultado (by omega)

theorem saltar_espacios_fuel_spec :
    ∀ (n : ℕ) (a : AnalizadorLexico),
      a.texto.length - a.pos < n →
      AnalizadorLexico.saltar_espacios_fuel n a =
        ⟨a.texto, a.pos + ((resto a).takeWhile esEspacio).length,
         (((resto a).takeWhile esEspacio).foldl avanzaLC (a.linea, a.columna)).1,
         (((resto a).takeWhile esEspacio).foldl avanzaLC (a.linea, a.columna)).2,
         a.tokens⟩ := by
  intro n
  induction n with
  | zero => intro a h; omega
  | succ n ih =>
    intro a h
    unfold AnalizadorLexico.saltar_espacios_fuel
    split
    · rename_i c hc
      have hlt := caracter_actual_lt hc
      have hav := avanzar_some hc
      have hresto := resto_cons hc
      by_cases hp : esEspacio c
      · rw [if_pos hp]
        rw [ih a.avanzar (by rw [hav]; simp; omega)]
        rw [hresto, List.takeWhile_cons_of_pos hp]
        rw [hav]
        simp only [List.foldl_cons, Prod.mk.eta, List.length_cons,
          AnalizadorLexico.mk.injEq, true_and, and_true]
        all_goals omega
      · rw [if_neg hp]
        have htw : (resto a).takeWhile esEspacio = [] := by
          rw [hresto]
          exact List.takeWhile_cons_of_neg hp
        simp [htw]
    · rename_i hc
      simp [resto_none hc]

theorem saltar_espacios_spec (a : AnalizadorLexico) :
    a.saltar_espacios =
      ⟨a.texto, a.pos + ((resto a).takeWhile esEspacio).length,
       (((resto a).takeWhile esEspacio).foldl avanzaLC (a.linea, a.columna)).1,
       (((resto a).takeWhile esEspacio).foldl avanzaLC (a.linea, a.columna)).2,
       a.tokens⟩ :=
  saltar_espacios_fuel_spec _ a (by omega)

theorem peek_head (a : AnalizadorLexico) : a.peek = (resto a).tail.head? := by
  rw [resto, List.tail_drop, List.head?_drop]
  rfl

theorem head?_dropWhile (p : Char → Bool) (l : List Char) :
    ∀ c, (l.dropWhile p).head? = some c → p c = false := by
  intro c h
  have hx := List.head?_dropWhile_not p l
  rw [h] at hx
  exact hx

theorem mem_takeWhile (p : Char → Bool) (l : List Char) :
    ∀ c ∈ l.takeWhile p, p c = true := fun c hc =>
  List.all_eq_true.mp List.all_takeWhile c hc

theorem resto_estado (t : List Char) (p li co : ℕ) (tk : List Token) :
    resto ⟨t, p, li, co, tk⟩ = t.drop p := rfl

theorem drop_resto (a : AnalizadorLexico) (k : ℕ) :
    a.texto.drop (a.pos + k) = (resto a).drop k := by
  rw [resto, List.drop_drop]

/-- `leer_numero` at a maximal digit run not continued by `.`+digit:
consumes exactly the run and emits the exact integer token, recorded at
the position of the run's first character. -/
theorem leer_numero_entero {a : AnalizadorLexico} {I rest : List Char}
    (hr : resto a = I ++ rest)
    (hdig : ∀ c ∈ I, esDigito c = true)
    (hrest : ∀ c, rest.head? = some c → esDigito c = false)
    (hnodot : ∀ d r, rest = '.' :: d :: r → esDigito d = false) :
    a.leer_numero =
      (⟨.ENTERO, .int (pyInt I), a.linea, a.columna⟩,
       ⟨a.texto, a.pos + I.length, a.linea, a.columna + I.length, a.tokens⟩) := by
  obtain ⟨htw, _⟩ := takeWhile_frontera hdig hrest
  have hfold : I.foldl avanzaLC (a.linea, a.columna) = (a.linea, a.columna + I.length) :=
    foldl_avanzaLC_sin_salto I a.linea a.columna (fun c hc => esDigito_no_salto (hdig c hc))
  have hresto1 : a.texto.drop (a.pos + I.length) = rest := by
    rw [drop_resto, hr, List.drop_left]
  unfold AnalizadorLexico.leer_numero
  dsimp only
  rw [leer_mientras_spec, hr, htw, hfold]
  dsimp only
  rw [show (⟨a.texto, a.pos + I.length, a.linea, a.columna + I.length,
        a.tokens⟩ : AnalizadorLexico).caracter_actual = rest.head? from by
      rw [caracter_actual_head, resto_estado, hresto1]]
  rw [show (⟨a.texto, a.pos + I.length, a.linea, a.columna + I.length,
        a.tokens⟩ : AnalizadorLexico).peek = rest.tail.head? from by
      rw [peek_head, resto_estado, hresto1]]
  split
  · rename_i c heq1 heq2
    rcases rest with _ | ⟨c0, r0⟩
    · exact absurd heq1 (by simp)
    · simp only [List.head?_cons, Option.some.injEq] at heq1
      subst heq1
      rcases r0 with _ | ⟨c1, r1⟩
      · exact absurd heq2 (by simp)
      · simp only [List.tail_cons, List.head?_cons, Option.some.injEq] at heq2
        subst heq2
        rw [if_neg (by simp [hnodot c1 r1 rfl])]
        rfl
  · rfl

/-- `leer_numero` at a digit run followed by `.` and a digit: consumes the
integer part, the dot, and the maximal fractional digit run, and emits one
real token parsing the entire consumed lexeme, recorded at the position of
the run's first character. -/
theorem leer_numero_real {a : AnalizadorLexico} {I F rest : List Char}
    (hr : resto a = I ++ '.' :: (F ++ rest))
    (hdigI : ∀ c ∈ I, esDigito c = true)
    (hF : F ≠ []) (hdigF : ∀ c ∈ F, esDigito c = true)
    (hrest : ∀ c, rest.head? = some c → esDigito c = false) :
    a.leer_numero =
      (⟨.REAL, .real (pyFloat (I ++ '.' :: F)), a.linea, a.columna⟩,
       ⟨a.texto, a.pos + (I.length + 1 + F.length), a.linea,
        a.columna + (I.length + 1 + F.length), a.tokens⟩) := by
  obtain ⟨f, Fc, rfl⟩ := List.exists_cons_of_ne_nil hF
  obtain ⟨htw, _⟩ := @takeWhile_frontera esDigito I ('.' :: (f :: Fc ++ rest)) hdigI
    (fun c hc => by
      simp only [List.head?_cons, Option.some.injEq] at hc
      subst hc
      decide)
  have hfoldI : I.foldl avanzaLC (a.linea, a.columna) = (a.linea, a.columna + I.length) :=
    foldl_avanzaLC_sin_salto I a.linea a.columna (fun c hc => esDigito_no_salto (hdigI c hc))
  have hresto1 : a.texto.drop (a.pos + I.length) = '.' :: (f :: Fc ++ rest) := by
    rw [drop_resto, hr, List.drop_left]
  have hca : (⟨a.texto, a.pos + I.length, a.linea, a.columna + I.length,
      a.tokens⟩ : AnalizadorLexico).caracter_actual = some '.' := by
    rw [caracter_actual_head, resto_estado, hresto1]
    rfl
  have hpk : (⟨a.texto, a.pos + I.length, a.linea, a.columna + I.length,
      a.tokens⟩ : AnalizadorLexico).peek = some f := by
    rw [peek_head, resto_estado, hresto1]
    rfl
  have hresto2 : a.texto.drop (a.pos + I.length + 1) = f :: Fc ++ rest := by
    rw [← List.drop_drop, hresto1]
    rfl
  obtain ⟨htw2, _⟩ := takeWhile_frontera hdigF hrest
  unfold AnalizadorLexico.leer_numero
  dsimp only
  rw [leer_mientras_spec, hr, htw, hfoldI]
  dsimp only
  rw [hca, hpk]
  split
  · rename_i c heq1 heq2
    have hcf : f = c := by simpa using heq2
    subst hcf
    rw [if_pos (hdigF f (by simp))]
    rw [avanzar_some hca]
    dsimp only
    rw [show avanzaLC (a.linea, a.columna + I.length) '.' =
        (a.linea, a.columna + I.length + 1) from by
      unfold avanzaLC
      rw [if_neg (by decide)]]
    dsimp only
    rw [leer_mientras_spec, resto_estado, hresto2, htw2]
    rw [foldl_avanzaLC_sin_salto (f :: Fc) a.linea (a.columna + I.length + 1)
      (fun d hd => esDigito_no_salto (hdigF d hd))]
    dsimp only
    simp only [Prod.mk.injEq, AnalizadorLexico.mk.injEq, Token.mk.injEq, Valor.real.injEq,
      List.nil_append, List.append_assoc, List.singleton_append, List.length_cons,
      true_and, and_true]
    omega
  · rename_i hnomatch
    exact (hnomatch f rfl rfl).elim

/-- `leer_identificador` consumes exactly the maximal run of
alphanumeric-or-underscore characters and emits one identifier token,
recorded at the position of the run's first character. -/
theorem leer_identificador_spec {a : AnalizadorLexico} {S rest : List Char}
    (hr : resto a = S ++ rest)
    (hS : ∀ c ∈ S, esIdent c = true)
    (hrest : ∀ c, rest.head? = some c → esIdent c = false) :
    a.leer_identificador =
      (⟨.ID, .str S, a.linea, a.columna⟩,
       ⟨a.texto, a.pos + S.length, a.linea, a.columna + S.length, a.tokens⟩) := by
  obtain ⟨htw, _⟩ := takeWhile_frontera hS hrest
  have hfold : S.foldl avanzaLC (a.linea, a.columna) = (a.linea, a.columna + S.length) :=
    foldl_avanzaLC_sin_salto S a.linea a.columna (fun c hc => esIdent_no_salto (hS c hc))
  unfold AnalizadorLexico.leer_identificador
  dsimp only
  rw [leer_mientras_spec, hr, htw, hfold]
  rfl

/-! ### Position bookkeeping and other helpers for the dispatch loop -/

theorem lineaColumnaEn_cero (t : List Char) : lineaColumnaEn t 0 = (1, 1) := rfl

/-- Coordinates compose along a consumed chunk `u` of the text. -/
theorem lineaColumnaEn_foldl {t : List Char} {p : ℕ} {u r : List Char}
    (h : t.drop p = u ++ r) :
    lineaColumnaEn t (p + u.length) = u.foldl avanzaLC (lineaColumnaEn t p) := by
  unfold lineaColumnaEn
  rw [List.take_add, h, List.take_left, List.foldl_append]

theorem espacio_no_digito {c : Char} (h : esEspacio c = true) : esDigito c = false := by
  simp only [esEspacio, decide_eq_true_eq] at h
  simp only [esDigito, decide_eq_false_iff_not]
  omega

theorem forall₂_mem_left {R : ℕ → Token → Prop} :
    ∀ {ps : List ℕ} {ts : List Token}, List.Forall₂ R ps ts →
      ∀ p ∈ ps, ∃ tok, R p tok := by
  intro ps ts h
  induction h with
  | nil => intro p hp; cases hp
  | cons hr _ ih =>
    intro p hp
    rcases List.mem_cons.mp hp with rfl | hp
    · exact ⟨_, hr⟩
    · exact ih p hp

/-- The dispatch loop, run with enough fuel from a coherently positioned
state: it either succeeds with the cursor at end-of-input, or fails on a
character in none of the three dispatch classes, reported at its own
position; every appended token is sound (`TokenEn`) and the token start
offsets strictly increase. -/
theorem analizar_fuel_spec :
    ∀ (n : ℕ) (a : AnalizadorLexico),
      a.texto.length - a.pos < n →
      (a.linea, a.columna) = lineaColumnaEn a.texto a.pos →
      ∃ (e : Option LexError) (la : AnalizadorLexico) (ts : List Token) (ps : List ℕ),
        AnalizadorLexico.analizar_fuel n a = (e, la) ∧
        la.texto = a.texto ∧
        a.pos ≤ la.pos ∧
        (la.linea, la.columna) = lineaColumnaEn a.texto la.pos ∧
        la.tokens = a.tokens ++ ts ∧
        List.Forall₂ (fun p tok => a.pos ≤ p ∧ TokenEn a.texto p tok) ps ts ∧
        List.Pairwise (fun p q => p < q) ps ∧
        (e = none → la.caracter_actual = none) ∧
        (∀ err, e = some err →
          la.caracter_actual = some err.caracter ∧
          err.linea = la.linea ∧ err.columna = la.columna ∧
          esEspacio err.caracter = false ∧ esDigito err.caracter = false ∧
          (esAlpha err.caracter || err.caracter == '_') = false) := by
  intro n
  induction n with
  | zero => intro a h _; omega
  | succ n ih =>
    intro a h hlc
    unfold AnalizadorLexico.analizar_fuel
    split
    · rename_i hc
      exact ⟨none, a, [], [], rfl, rfl, Nat.le_refl _, hlc, by simp, List.Forall₂.nil,
        List.Pairwise.nil, fun _ => hc, fun err he => by cases he⟩
    · rename_i c hc
      have hlt := caracter_actual_lt hc
      have hRc := resto_cons hc
      by_cases hesp : esEspacio c
      · rw [if_pos hesp]
        rw [saltar_espacios_spec]
        set W := (resto a).takeWhile esEspacio with hWdef
        have hWne : W ≠ [] := by
          rw [hWdef, hRc, List.takeWhile_cons_of_pos hesp]
          simp
        have hWlen : 1 ≤ W.length := by
          rcases List.exists_cons_of_ne_nil hWne with ⟨x, xs, hx⟩
          rw [hx]; simp
        have hdecomp : a.texto.drop a.pos = W ++ (resto a).dropWhile esEspacio := by
          rw [← resto, hWdef, List.takeWhile_append_dropWhile]
        have hlc2 : ((W.foldl avanzaLC (a.linea, a.columna)).1,
            (W.foldl avanzaLC (a.linea, a.columna)).2) =
            lineaColumnaEn a.texto (a.pos + W.length) := by
          rw [Prod.mk.eta, lineaColumnaEn_foldl hdecomp, ← hlc]
        obtain ⟨e, la, ts, ps, h1, h2, h3, h4, h5, h6, h7, h8, h9⟩ :=
          ih ⟨a.texto, a.pos + W.length, (W.foldl avanzaLC (a.linea, a.columna)).1,
              (W.foldl avanzaLC (a.linea, a.columna)).2, a.tokens⟩
            (by dsimp only; omega) (by dsimp only; exact hlc2)
        dsimp only at h2 h3 h4 h5 h6
        exact ⟨e, la, ts, ps, h1, h2, by omega, h4, h5,
          List.Forall₂.imp
            (fun p tok hpt => ⟨le_trans (Nat.le_add_right a.pos W.length) hpt.1, hpt.2⟩) h6,
          h7, h8, h9⟩
      · rw [if_neg hesp]
        by_cases hdig : esDigito c
        · rw [if_pos hdig]
          set I := (resto a).takeWhile esDigito with hIdef
          set R1 := (resto a).dropWhile esDigito with hR1def
          have hIne : I ≠ [] := by
            rw [hIdef, hRc, List.takeWhile_cons_of_pos hdig]
            simp
          have hIlen : 1 ≤ I.length := by
            rcases List.exists_cons_of_ne_nil hIne with ⟨x, xs, hx⟩
            rw [hx]; simp
          have hIdig : ∀ x ∈ I, esDigito x = true := mem_takeWhile esDigito (resto a)
          have hR1head : ∀ x, R1.head? = some x → esDigito x = false :=
            head?_dropWhile esDigito (resto a)
          have hsplit : resto a = I ++ R1 :=
            (List.takeWhile_append_dropWhile esDigito (resto a)).symm
          by_cases hdot : ∃ d r, R1 = '.' :: d :: r ∧ esDigito d = true
          · obtain ⟨d, r, hR1, hd⟩ := hdot
            set F := (d :: r).takeWhile esDigito with hFdef
            set rest := (d :: r).dropWhile esDigito with hrestdef
            have hFne : F ≠ [] := by
              rw [hFdef, List.takeWhile_cons_of_pos hd]
              simp
            have hFdig : ∀ x ∈ F, esDigito x = true := mem_takeWhile esDigito (d :: r)
            have hresthead : ∀ x, rest.head? = some x → esDigito x = false :=
              head?_dropWhile esDigito (d :: r)
            have hdr : d :: r = F ++ rest :=
              (List.takeWhile_append_dropWhile esDigito (d :: r)).symm
            have hr : resto a = I ++ '.' :: (F ++ rest) := by
              rw [hsplit, hR1, hdr]
            rw [leer_numero_real hr hIdig hFne hFdig hresthead]
            dsimp only
            have hlex : a.texto.drop a.pos = (I ++ '.' :: F) ++ rest := by
              rw [← resto, hr]
              simp
            have hlexlen : (I ++ '.' :: F).length = I.length + 1 + F.length := by
              simp
              omega
            have htok : TokenEn a.texto a.pos
                ⟨.REAL, .real (pyFloat (I ++ '.' :: F)), a.linea, a.columna⟩ :=
              ⟨hlc, I ++ '.' :: F, rest, by simp, hlex,
                Or.inr (Or.inl ⟨I, F, rfl, rfl, rfl, hIne, hFne, hIdig, hFdig⟩)⟩
            have hnl : ∀ x ∈ I ++ '.' :: F, x ≠ '\n' := by
              intro x hx
              rcases List.mem_append.mp hx with hx | hx
              · exact esDigito_no_salto (hIdig x hx)
              · rcases List.mem_cons.mp hx with rfl | hx
                · decide
                · exact esDigito_no_salto (hFdig x hx)
            have hlc3 : ((a.linea : ℕ), a.columna + (I.length + 1 + F.length)) =
                lineaColumnaEn a.texto (a.pos + (I.length + 1 + F.length)) := by
              have hfl := lineaColumnaEn_foldl hlex
              rw [hlexlen] at hfl
              rw [hfl, ← hlc,
                foldl_avanzaLC_sin_salto (I ++ '.' :: F) a.linea a.columna hnl, hlexlen]
            obtain ⟨e, la, ts, ps, h1, h2, h3, h4, h5, h6, h7, h8, h9⟩ :=
              ih ⟨a.texto, a.pos + (I.length + 1 + F.length), a.linea,
                  a.columna + (I.length + 1 + F.length),
                  a.tokens ++ [⟨.REAL, .real (pyFloat (I ++ '.' :: F)), a.linea, a.columna⟩]⟩
                (by dsimp only; omega) (by dsimp only; exact hlc3)
            dsimp only at h2 h3 h4 h5 h6
            refine ⟨e, la,
              ⟨.REAL, .real (pyFloat (I ++ '.' :: F)), a.linea, a.columna⟩ :: ts,
              a.pos :: ps, h1, h2, by omega, h4, by rw [h5]; simp, ?_, ?_, h8, h9⟩
            · exact List.Forall₂.cons ⟨Nat.le_refl _, htok⟩
                (List.Forall₂.imp
                  (fun p tok hpt =>
                    ⟨le_trans (Nat.le_add_right a.pos (I.length + 1 + F.length)) hpt.1,
                     hpt.2⟩) h6)
            · refine List.pairwise_cons.mpr ⟨?_, h7⟩
              intro p' hp'
              obtain ⟨tok', hR⟩ := forall₂_mem_left h6 p' hp'
              have hge := hR.1
              omega
          · have hnodot : ∀ d r, R1 = '.' :: d :: r → esDigito d = false := by
              intro d r hdr
              cases hx : esDigito d
              · rfl
              · exact absurd ⟨d, r, hdr, hx⟩ hdot
            rw [leer_numero_entero hsplit hIdig hR1head hnodot]
            dsimp only
            have hlex : a.texto.drop a.pos = I ++ R1 := hsplit
            have htok : TokenEn a.texto a.pos
                ⟨.ENTERO, .int (pyInt I), a.linea, a.columna⟩ :=
              ⟨hlc, I, R1, hIne, hlex, Or.inl ⟨rfl, rfl, hIdig⟩⟩
            have hnl : ∀ x ∈ I, x ≠ '\n' := fun x hx => esDigito_no_salto (hIdig x hx)
            have hlc3 : ((a.linea : ℕ), a.columna + I.length) =
                lineaColumnaEn a.texto (a.pos + I.length) := by
              rw [lineaColumnaEn_foldl hlex, ← hlc,
                foldl_avanzaLC_sin_salto I a.linea a.columna hnl]
            obtain ⟨e, la, ts, ps, h1, h2, h3, h4, h5, h6, h7, h8, h9⟩ :=
              ih ⟨a.texto, a.pos + I.length, a.linea, a.columna + I.length,
                  a.tokens ++ [⟨.ENTERO, .int (pyInt I), a.linea, a.columna⟩]⟩
                (by dsimp only; omega) (by dsimp only; exact hlc3)
            dsimp only at h2 h3 h4 h5 h6
            refine ⟨e, la, ⟨.ENTERO, .int (pyInt I), a.linea, a.columna⟩ :: ts,
              a.pos :: ps, h1, h2, by omega, h4, by rw [h5]; simp, ?_, ?_, h8, h9⟩
            · exact List.Forall₂.cons ⟨Nat.le_refl _, htok⟩
                (List.Forall₂.imp
                  (fun p tok hpt =>
                    ⟨le_trans (Nat.le_add_right a.pos I.length) hpt.1, hpt.2⟩) h6)
            · refine List.pairwise_cons.mpr ⟨?_, h7⟩
              intro p' hp'
              obtain ⟨tok', hR⟩ := forall₂_mem_left h6 p' hp'
              have hge := hR.1
              omega
        · rw [if_neg hdig]
          by_cases hid : (esAlpha c || c == '_') = true
          · rw [if_pos hid]
            set S := (resto a).takeWhile esIdent with hSdef
            set rest := (resto a).dropWhile esIdent with hrestdef
            have hcid : esIdent c = true := esInicioIdent_esIdent hid
            have hSc : S = c :: (resto a.avanzar).takeWhile esIdent := by
              rw [hSdef, hRc, List.takeWhile_cons_of_pos hcid]
            have hSne : S ≠ [] := by rw [hSc]; simp
            have hSlen : 1 ≤ S.length := by rw [hSc]; simp
            have hSid : ∀ x ∈ S, esIdent x = true := mem_takeWhile esIdent (resto a)
            have hresthead : ∀ x, rest.head? = some x → esIdent x = false :=
              head?_dropWhile esIdent (resto a)
            have hsplit2 : resto a = S ++ rest :=
              (List.takeWhile_append_dropWhile esIdent (resto a)).symm
            rw [leer_identificador_spec hsplit2 hSid hresthead]
            dsimp only
            have hlex : a.texto.drop a.pos = S ++ rest := hsplit2
            have htok : TokenEn a.texto a.pos ⟨.ID, .str S, a.linea, a.columna⟩ := by
              refine ⟨hlc, S, rest, hSne, hlex, Or.inr (Or.inr ⟨rfl, rfl, hSid, ?_⟩)⟩
              intro x hx
              rw [hSc] at hx
              simp only [List.head?_cons, Option.some.injEq] at hx
              subst hx
              exact hid
            have hnl : ∀ x ∈ S, x ≠ '\n' := fun x hx => esIdent_no_salto (hSid x hx)
            have hlc3 : ((a.linea : ℕ), a.columna + S.length) =
                lineaColumnaEn a.texto (a.pos + S.length) := by
              rw [lineaColumnaEn_foldl hlex, ← hlc,
                foldl_avanzaLC_sin_salto S a.linea a.columna hnl]
            obtain ⟨e, la, ts, ps, h1, h2, h3, h4, h5, h6, h7, h8, h9⟩ :=
              ih ⟨a.texto, a.pos + S.length, a.linea, a.columna + S.length,
                  a.tokens ++ [⟨.ID, .str S, a.linea, a.columna⟩]⟩
                (by dsimp only; omega) (by dsimp only; exact hlc3)
            dsimp only at h2 h3 h4 h5 h6
            refine ⟨e, la, ⟨.ID, .str S, a.linea, a.columna⟩ :: ts,
              a.pos :: ps, h1, h2, by omega, h4, by rw [h5]; simp, ?_, ?_, h8, h9⟩
            · exact List.Forall₂.cons ⟨Nat.le_refl _, htok⟩
                (List.Forall₂.imp
                  (fun p tok hpt =>
                    ⟨le_trans (Nat.le_add_right a.pos S.length) hpt.1, hpt.2⟩) h6)
            · refine List.pairwise_cons.mpr ⟨?_, h7⟩
              intro p' hp'
              obtain ⟨tok', hR⟩ := forall₂_mem_left h6 p' hp'
              have hge := hR.1
              omega
          · rw [if_neg hid]
            refine ⟨some (a.error c), a, [], [], rfl, rfl, Nat.le_refl _, hlc, by simp,
              List.Forall₂.nil, List.Pairwise.nil, fun hnone => Option.noConfusion hnone, ?_⟩
            intro err he
            have herr : err = ⟨c, a.linea, a.columna⟩ := by
              injection he with he2
              exact he2.symm
            subst herr
            exact ⟨hc, rfl, rfl, by simpa using hesp, by simpa using hdig,
              by simpa using hid⟩

/-- A well-formed numeric lexeme starts with a digit. -/
theorem LexemaNum.txt_cons {lx : LexemaNum} (h : lx.ok) :
    ∃ d t, lx.txt = d :: t ∧ esDigito d = true := by
  cases lx with
  | entero I =>
    obtain ⟨hne, hdig⟩ := h
    obtain ⟨d, t, rfl⟩ := List.exists_cons_of_ne_nil hne
    exact ⟨d, t, rfl, hdig d (by simp)⟩
  | real I F =>
    obtain ⟨hne, _, hdigI, _⟩ := h
    obtain ⟨d, t, rfl⟩ := List.exists_cons_of_ne_nil hne
    exact ⟨d, (t ++ '.' :: F), by simp [LexemaNum.txt], hdigI d (by simp)⟩

/-- The dispatch loop on an input made only of whitespace-separated numeric
lexemes: scanning succeeds and appends exactly one `Number` token per
lexeme, with the lexeme's kind and value. -/
theorem analizar_fuel_solo_numeros :
    ∀ (n : ℕ) (a : AnalizadorLexico) (l : List Char) (lxs : List LexemaNum),
      SoloNumeros l lxs → resto a = l →
      a.texto.length - a.pos < n →
      ∃ la ts, AnalizadorLexico.analizar_fuel n a = (none, la) ∧
        la.tokens = a.tokens ++ ts ∧
        List.Forall₂ (fun tok lx => tok.tipo = lx.tipo ∧ tok.valor = lx.valor) ts lxs := by
  intro n
  induction n with
  | zero => intro a l lxs _ _ h; omega
  | succ n ih =>
    intro a l lxs hsn hres h
    cases hsn with
    | nil w hw =>
      unfold AnalizadorLexico.analizar_fuel
      split
      · exact ⟨a, [], rfl, by simp, List.Forall₂.nil⟩
      · rename_i c hc
        have hlt := caracter_actual_lt hc
        have hcw : c ∈ l := by
          rw [caracter_actual_head, hres] at hc
          rcases l with _ | ⟨x, xs⟩
          · exact absurd hc (by simp)
          · simp only [List.head?_cons, Option.some.injEq] at hc
            subst hc
            simp
        have hesp := hw c hcw
        rw [if_pos hesp, saltar_espacios_spec]
        have hdw : l.dropWhile esEspacio = [] := by
          have haux : ∀ (m : List Char), (∀ x ∈ m, esEspacio x = true) →
              m.dropWhile esEspacio = [] := by
            intro m
            induction m with
            | nil => intro _; rfl
            | cons x xs ihm =>
              intro hm
              rw [List.dropWhile_cons_of_pos (hm x (by simp))]
              exact ihm (fun y hy => hm y (by simp [hy]))
          exact haux l hw
        have hW1 : 1 ≤ ((resto a).takeWhile esEspacio).length := by
          rw [resto_cons hc, List.takeWhile_cons_of_pos hesp]
          simp
        have hres2 : a.texto.drop (a.pos + ((resto a).takeWhile esEspacio).length) = [] := by
          rw [drop_resto, drop_takeWhile_length, hres, hdw]
        obtain ⟨la, ts, H1, H2, H3⟩ :=
          ih ⟨a.texto, a.pos + ((resto a).takeWhile esEspacio).length,
              ((((resto a).takeWhile esEspacio).foldl avanzaLC (a.linea, a.columna)).1),
              ((((resto a).takeWhile esEspacio).foldl avanzaLC (a.linea, a.columna)).2),
              a.tokens⟩
            [] [] (SoloNumeros.nil [] (by simp)) (by rw [resto_estado]; exact hres2)
            (by dsimp only; omega)
        cases H3
        exact ⟨la, [], H1, by dsimp only at H2; simpa using H2, List.Forall₂.nil⟩
    | cons w hw lx hlx rest lxs' hsep hrest =>
      obtain ⟨d, tl, htxt, hd⟩ := LexemaNum.txt_cons hlx
      rcases w with _ | ⟨cw, w'⟩
      · simp only [List.nil_append] at hres
        unfold AnalizadorLexico.analizar_fuel
        split
        · rename_i hc0
          rw [caracter_actual_head, hres, htxt] at hc0
          exact absurd hc0 (by simp)
        · rename_i c hc
          have hlt := caracter_actual_lt hc
          have hcd : d = c := by
            rw [caracter_actual_head, hres, htxt] at hc
            simpa using hc
          subst hcd
          rw [if_neg (by simp [esDigito_no_espacio hd]), if_pos hd]
          have hrestnd : ∀ x, rest.head? = some x → esDigito x = false := fun x hx =>
            espacio_no_digito (hsep x hx)
          cases lx with
          | entero I =>
            have hIdig : ∀ x ∈ I, esDigito x = true := hlx.2
            have hIne : I ≠ [] := hlx.1
            have hres3 : resto a = I ++ rest := hres
            have hnodot : ∀ e r, rest = '.' :: e :: r → esDigito e = false := by
              intro e r hr2
              have hpt : esEspacio '.' = true := hsep '.' (by rw [hr2]; rfl)
              exact absurd hpt (by decide)
            rw [leer_numero_entero hres3 hIdig hrestnd hnodot]
            dsimp only
            have hIlen : 1 ≤ I.length := by
              rcases List.exists_cons_of_ne_nil hIne with ⟨x, xs, hx⟩
              rw [hx]; simp
            have hres4 : a.texto.drop (a.pos + I.length) = rest := by
              rw [drop_resto, hres3, List.drop_left]
            obtain ⟨la, ts, H1, H2, H3⟩ :=
              ih ⟨a.texto, a.pos + I.length, a.linea, a.columna + I.length,
                  a.tokens ++ [⟨.ENTERO, .int (pyInt I), a.linea, a.columna⟩]⟩
                rest lxs' hrest (by rw [resto_estado]; exact hres4)
                (by dsimp only; omega)
            refine ⟨la, ⟨.ENTERO, .int (pyInt I), a.linea, a.columna⟩ :: ts, H1,
              by dsimp only at H2; rw [H2]; simp, List.Forall₂.cons ⟨rfl, rfl⟩ H3⟩
          | real I F =>
            obtain ⟨hIne, hFne, hIdig, hFdig⟩ := hlx
            have hres3 : resto a = I ++ '.' :: (F ++ rest) := by
              rw [hres]
              simp [LexemaNum.txt]
            rw [leer_numero_real hres3 hIdig hFne hFdig hrestnd]
            dsimp only
            have hres4 : a.texto.drop (a.pos + (I.length + 1 + F.length)) = rest := by
              rw [drop_resto, hres3]
              rw [show I ++ '.' :: (F ++ rest) = (I ++ '.' :: F) ++ rest by simp]
              exact List.drop_left' (by simp; omega)
            obtain ⟨la, ts, H1, H2, H3⟩ :=
              ih ⟨a.texto, a.pos + (I.length + 1 + F.length), a.linea,
                  a.columna + (I.length + 1 + F.length),
                  a.tokens ++ [⟨.REAL, .real (pyFloat (I ++ '.' :: F)), a.linea, a.columna⟩]⟩
                rest lxs' hrest (by rw [resto_estado]; exact hres4)
                (by dsimp only; omega)
            refine ⟨la, ⟨.REAL, .real (pyFloat (I ++ '.' :: F)), a.linea, a.columna⟩ :: ts, H1,
              by dsimp only at H2; rw [H2]; simp, List.Forall₂.cons ⟨rfl, rfl⟩ H3⟩
      · unfold AnalizadorLexico.analizar_fuel
        split
        · rename_i hc0
          rw [caracter_actual_head, hres] at hc0
          exact absurd hc0 (by simp)
        · rename_i c hc
          have hlt := caracter_actual_lt hc
          have hccw : cw = c := by
            rw [caracter_actual_head, hres] at hc
            simpa using hc
          subst hccw
          have hesp := hw _ (List.mem_cons_self _ _)
          rw [if_pos hesp, saltar_espacios_spec]
          have hW1 : 1 ≤ ((resto a).takeWhile esEspacio).length := by
            rw [resto_cons hc, List.takeWhile_cons_of_pos hesp]
            simp
          have hres2 : a.texto.drop (a.pos + ((resto a).takeWhile esEspacio).length) =
              lx.txt ++ rest := by
            have hw' : ∀ x ∈ w', esEspacio x = true :=
              fun x hx => hw x (List.mem_cons_of_mem _ hx)
            rw [drop_resto, drop_takeWhile_length, hres, htxt]
            simp only [List.cons_append, List.append_assoc]
            rw [List.dropWhile_cons_of_pos hesp,
              List.dropWhile_append_of_pos hw',
              List.dropWhile_cons_of_neg (by simp [esDigito_no_espacio hd])]
          obtain ⟨la, ts, H1, H2, H3⟩ :=
            ih ⟨a.texto, a.pos + ((resto a).takeWhile esEspacio).length,
                ((((resto a).takeWhile esEspacio).foldl avanzaLC (a.linea, a.columna)).1),
                ((((resto a).takeWhile esEspacio).foldl avanzaLC (a.linea, a.columna)).2),
                a.tokens⟩
              ([] ++ lx.txt ++ rest) (lx :: lxs')
              (SoloNumeros.cons [] (by simp) lx hlx rest lxs' hsep hrest)
              (by rw [resto_estado]; simpa using hres2)
              (by dsimp only; omega)
          exact ⟨la, ts, H1, by dsimp only at H2; simpa using H2, H3⟩

/-! ### From the fuelled loop to `analizar` -/

theorem analizar_of_fuel_ok {a la : AnalizadorLexico}
    (h : AnalizadorLexico.analizar_fuel (a.texto.length + 1) { a with tokens := [] } =
      (none, la)) :
    a.analizar = (Except.ok la.tokens, la) := by
  unfold AnalizadorLexico.analizar
  dsimp only
  rw [h]

theorem analizar_of_fuel_error {a la : AnalizadorLexico} {err : LexError}
    (h : AnalizadorLexico.analizar_fuel (a.texto.length + 1) { a with tokens := [] } =
      (some err, la)) :
    a.analizar = (Except.error err, la) := by
  unfold AnalizadorLexico.analizar
  dsimp only
  rw [h]

theorem analizar_fuel_eoi {n : ℕ} {a : AnalizadorLexico}
    (hc : a.caracter_actual = none) :
    AnalizadorLexico.analizar_fuel (n + 1) a = (none, a) := by
  unfold AnalizadorLexico.analizar_fuel
  rw [hc]

theorem analizar_fuel_paso_digito {n : ℕ} {a : AnalizadorLexico} {c : Char}
    (hc : a.caracter_actual = some c) (hd : esDigito c = true) :
    AnalizadorLexico.analizar_fuel (n + 1) a =
      AnalizadorLexico.analizar_fuel n
        { (a.leer_numero).2 with tokens := (a.leer_numero).2.tokens ++ [(a.leer_numero).1] } := by
  have hespf : esEspacio c = false := esDigito_no_espacio hd
  conv_lhs => unfold AnalizadorLexico.analizar_fuel
  rw [hc]
  simp [hespf, hd]

theorem analizar_fuel_paro {n : ℕ} {a : AnalizadorLexico} {c : Char}
    (hc : a.caracter_actual = some c)
    (h1 : esEspacio c = false) (h2 : esDigito c = false)
    (h3 : (esAlpha c || c == '_') = false) :
    AnalizadorLexico.analizar_fuel (n + 1) a = (some ⟨c, a.linea, a.columna⟩, a) := by
  conv_lhs => unfold AnalizadorLexico.analizar_fuel
  rw [hc]
  simp [h1, h2, h3, AnalizadorLexico.error]

/-- The whole `analizar` call on a fresh scanner, described. -/
theorem analizar_init_spec (t : List Char) :
    ∃ (e : Option LexError) (la : AnalizadorLexico) (ts : List Token) (ps : List ℕ),
      (e = none → (AnalizadorLexico.init t).analizar = (Except.ok ts, la)) ∧
      (∀ err, e = some err →
        (AnalizadorLexico.init t).analizar = (Except.error err, la)) ∧
      la.texto = t ∧
      (la.linea, la.columna) = lineaColumnaEn t la.pos ∧
      la.tokens = ts ∧
      List.Forall₂ (fun p tok => TokenEn t p tok) ps ts ∧
      List.Pairwise (fun p q => p < q) ps ∧
      (e = none → la.caracter_actual = none) ∧
      (∀ err, e = some err →
        la.caracter_actual = some err.caracter ∧
        err.linea = la.linea ∧ err.columna = la.columna ∧
        esEspacio err.caracter = false ∧ esDigito err.caracter = false ∧
        (esAlpha err.caracter || err.caracter == '_') = false) := by
  obtain ⟨e, la, ts, ps, h1, h2, h3, h4, h5, h6, h7, h8, h9⟩ :=
    analizar_fuel_spec (t.length + 1) (AnalizadorLexico.init t)
      (by dsimp only [AnalizadorLexico.init]; omega) rfl
  have hts : la.tokens = ts := by simpa using h5
  refine ⟨e, la, ts, ps, ?_, ?_, h2, h4, hts,
    List.Forall₂.imp (fun p tok hpt => hpt.2) h6, h7, h8, h9⟩
  · intro he
    subst he
    rw [← hts]
    exact analizar_of_fuel_ok h1
  · intro err he
    subst he
    exact analizar_of_fuel_error h1

/-- `analizarTexto` on an input of whitespace-separated numeric lexemes. -/
theorem analizarTexto_solo_numeros {t : List Char} {lxs : List LexemaNum}
    (h : SoloNumeros t lxs) :
    ∃ toks, analizarTexto t = .ok toks ∧
      List.Forall₂ (fun tok lx => tok.tipo = lx.tipo ∧ tok.valor = lx.valor) toks lxs := by
  obtain ⟨la, ts, H1, H2, H3⟩ :=
    analizar_fuel_solo_numeros (t.length + 1) (AnalizadorLexico.init t) t lxs h rfl
      (by dsimp only [AnalizadorLexico.init]; omega)
  refine ⟨ts, ?_, H3⟩
  unfold analizarTexto
  rw [analizar_of_fuel_ok H1]
  dsimp only
  rw [H2]
  rfl

/-- `analizar` when the cursor already sits at end-of-input. -/
theorem analizar_al_final {la : AnalizadorLexico} (h : la.caracter_actual = none) :
    la.analizar = (.ok [], { la with tokens := [] }) := by
  have h0 : ({ la with tokens := ([] : List Token) } : AnalizadorLexico).caracter_actual =
      none := h
  unfold AnalizadorLexico.analizar
  dsimp only
  rw [analizar_fuel_eoi h0]

/-- Successful scans produce sound tokens at strictly increasing offsets. -/
theorem analizarTexto_ok_spec {t : List Char} {toks : List Token}
    (h : analizarTexto t = .ok toks) :
    ∃ ps, List.Forall₂ (fun p tok => TokenEn t p tok) ps toks ∧
      List.Pairwise (fun p q => p < q) ps := by
  obtain ⟨e, la, ts, ps, g1, g2, g3, g4, g5, g6, g7, g8, g9⟩ := analizar_init_spec t
  unfold analizarTexto at h
  cases e with
  | none =>
    rw [g1 rfl] at h
    dsimp only at h
    obtain rfl : ts = toks := by simpa using h
    exact ⟨ps, g6, g7⟩
  | some err =>
    rw [g2 err rfl] at h
    dsimp only at h
    exact absurd h (by simp)

/-- Failing scans report an offending character of no dispatch class, at
the line/column of the position where it sits in the text. -/
theorem analizarTexto_error_spec {t : List Char} {err : LexError}
    (h : analizarTexto t = .error err) :
    ∃ p, p < t.length ∧ t[p]? = some err.caracter ∧
      (err.linea, err.columna) = lineaColumnaEn t p ∧
      esEspacio err.caracter = false ∧ esDigito err.caracter = false ∧
      (esAlpha err.caracter || err.caracter == '_') = false := by
  obtain ⟨e, la, ts, ps, g1, g2, g3, g4, g5, g6, g7, g8, g9⟩ := analizar_init_spec t
  unfold analizarTexto at h
  cases e with
  | none =>
    rw [g1 rfl] at h
    dsimp only at h
    exact absurd h (by simp)
  | some err2 =>
    rw [g2 err2 rfl] at h
    dsimp only at h
    obtain rfl : err2 = err := by simpa using h
    obtain ⟨k1, k2, k3, k4, k5, k6⟩ := g9 err2 rfl
    refine ⟨la.pos, ?_, ?_, ?_, k4, k5, k6⟩
    · have hk := caracter_actual_lt k1
      rwa [g3] at hk
    · unfold AnalizadorLexico.caracter_actual at k1
      rwa [g3] at k1
    · rw [k2, k3]
      exact g4

/-- Success leaves the cursor at end-of-input with the returned tokens
stored in the scanner state. -/
theorem analizar_init_ok_estado {t : List Char} {toks : List Token} {la : AnalizadorLexico}
    (h : (AnalizadorLexico.init t).analizar = (.ok toks, la)) :
    la.caracter_actual = none ∧ la.tokens = toks ∧ la.texto = t := by
  obtain ⟨e, la2, ts, ps, g1, g2, g3, g4, g5, g6, g7, g8, g9⟩ := analizar_init_spec t
  cases e with
  | none =>
    rw [g1 rfl] at h
    simp only [Prod.mk.injEq] at h
    obtain ⟨hA, hB⟩ := h
    obtain rfl : ts = toks := by simpa using hA
    subst hB
    exact ⟨g8 rfl, g5, g3⟩
  | some err =>
    rw [g2 err rfl] at h
    simp only [Prod.mk.injEq] at h
    exact absurd h.1 (by simp)

/-! ### Document order -/

theorem ordLC_trans {x y z : ℕ × ℕ} (h1 : ordLC x y) (h2 : ordLC y z) : ordLC x z := by
  unfold ordLC at h1 h2 ⊢
  omega

theorem avanzaLC_crece (lc : ℕ × ℕ) (c : Char) : ordLC lc (avanzaLC lc c) := by
  unfold ordLC avanzaLC
  by_cases hc : c = '\n'
  · rw [if_pos hc]
    exact Or.inl (Nat.lt_succ_self _)
  · rw [if_neg hc]
    exact Or.inr ⟨rfl, Nat.lt_succ_self _⟩

theorem foldl_avanzaLC_crece : ∀ (l : List Char) (lc : ℕ × ℕ), l ≠ [] →
    ordLC lc (l.foldl avanzaLC lc) := by
  intro l
  induction l with
  | nil => intro lc hl; exact absurd rfl hl
  | cons c tcs ih =>
    intro lc _
    rw [List.foldl_cons]
    rcases tcs with _ | ⟨c2, t2⟩
    · exact avanzaLC_crece lc c
    · exact ordLC_trans (avanzaLC_crece lc c) (ih (avanzaLC lc c) (by simp))

/-- Coordinates grow strictly in document order along the text. -/
theorem lineaColumnaEn_crece {t : List Char} {p q : ℕ} (hpq : p < q) (hq : q ≤ t.length) :
    ordLC (lineaColumnaEn t p) (lineaColumnaEn t q) := by
  have hsplit : t.drop p = (t.drop p).take (q - p) ++ (t.drop p).drop (q - p) :=
    (List.take_append_drop _ _).symm
  have hlen : ((t.drop p).take (q - p)).length = q - p := by
    rw [List.length_take, List.length_drop]
    omega
  have hfl := lineaColumnaEn_foldl hsplit
  rw [hlen, show p + (q - p) = q from by omega] at hfl
  rw [hfl]
  apply foldl_avanzaLC_crece
  intro hnil
  rw [hnil] at hlen
  simp at hlen
  omega

/-! ### Exactness of the integer parse -/

theorem pyInt_foldl : ∀ (l : List Char) (i : ℕ),
    List.foldl (fun n c => 10 * n + valorDigito c) i l = i * 10 ^ l.length + pyInt l := by
  intro l
  induction l with
  | nil => intro i; simp [pyInt]
  | cons c tcs ih =>
    intro i
    rw [List.foldl_cons, ih (10 * i + valorDigito c)]
    have h0 : pyInt (c :: tcs) = (10 * 0 + valorDigito c) * 10 ^ tcs.length + pyInt tcs := by
      unfold pyInt
      rw [List.foldl_cons, ih (10 * 0 + valorDigito c)]
      rfl
    rw [h0]
    simp only [List.length_cons]
    ring

/-- The accumulator fold of `pyInt` computes the standard positional value
of the digit string. -/
theorem pyInt_ofDigits : ∀ l : List Char,
    pyInt l = Nat.ofDigits 10 ((l.map valorDigito).reverse) := by
  intro l
  induction l with
  | nil => simp [pyInt]
  | cons c tcs ih =>
    have h1 : pyInt (c :: tcs) = valorDigito c * 10 ^ tcs.length + pyInt tcs := by
      unfold pyInt
      rw [List.foldl_cons, pyInt_foldl]
      simp only [Nat.mul_zero, Nat.zero_add]
      rfl
    rw [h1, ih]
    simp only [List.map_cons, List.reverse_cons]
    rw [Nat.ofDigits_append]
    simp [Nat.ofDigits]
    ring

/-! ### Small helpers for the claim statements -/

theorem sep_espacio {l : List Char} {c0 : Char} (h0 : esEspacio c0 = true) :
    ∀ c, (c0 :: l).head? = some c → esEspacio c = true := by
  intro c hc
  simp only [List.head?_cons, Option.some.injEq] at hc
  rw [← hc]
  exact h0

theorem infix_de_drop {t lex rest : List Char} {p : ℕ} (h : t.drop p = lex ++ rest) :
    lex <:+: t := by
  have h1 : lex <+: t.drop p := ⟨rest, h.symm⟩
  exact h1.isInfix.trans (List.drop_suffix p t).isInfix

theorem forall₂_mem_right {R : ℕ → Token → Prop} :
    ∀ {ps : List ℕ} {ts : List Token}, List.Forall₂ R ps ts →
      ∀ tok ∈ ts, ∃ p, R p tok := by
  intro ps ts h
  induction h with
  | nil => intro tok htk; cases htk
  | cons hr _ ih =>
    intro tok htk
    rcases List.mem_cons.mp htk with rfl | htk
    · exact ⟨_, hr⟩
    · exact ih tok htk

theorem pos_lt_de_TokenEn {t : List Char} {p : ℕ} {tok : Token}
    (h : TokenEn t p tok) : p < t.length := by
  obtain ⟨-, lex, rest, hne, hdrop, -⟩ := h
  have hlen : (t.drop p).length = lex.length + rest.length := by
    rw [hdrop]
    simp
  rw [List.length_drop] at hlen
  rcases List.exists_cons_of_ne_nil hne with ⟨x, xs, rfl⟩
  simp only [List.length_cons] at hlen
  omega

theorem esInicioIdent_no_digito {c : Char} (h : (esAlpha c || c == '_') = true) :
    esDigito c = false := by
  have h95 : ('_').toNat = 95 := by decide
  simp only [esAlpha, Bool.or_eq_true, beq_iff_eq, decide_eq_true_eq] at h
  simp only [esDigito, decide_eq_false_iff_not]
  rcases h with (h | h) | h
  · omega
  · omega
  · subst h; omega

theorem avanzar_pos_le (a : AnalizadorLexico) : a.pos ≤ a.avanzar.pos := by
  unfold AnalizadorLexico.avanzar
  split
  · split
    · exact Nat.le_succ _
    · exact Nat.le_succ _
  · exact Nat.le_refl _

/-! ### The claims -/

/-- C1: invoked at a digit, `leer_numero` consumes the maximal digit run;
then, if the current character is exactly `.` and the one past it is a
digit, it also consumes the `.` and the maximal following digit run and
emits a `Number(Real)` token valued at the parse of the entire consumed
run, and otherwise emits a `Number(Integer)` token with the exact integer
parse of the digit run. Consequently, every input made only of lexemes
matching `[0-9]+(\.[0-9]+)?` separated by whitespace scans entirely to
`Number` tokens, `Real` exactly when a dot followed by a digit was
present. -/
theorem claim_C1_leer_numero :
    (∀ (a : AnalizadorLexico) (I F rest : List Char),
      resto a = I ++ '.' :: (F ++ rest) →
      (∀ c ∈ I, esDigito c = true) →
      F ≠ [] → (∀ c ∈ F, esDigito c = true) →
      (∀ c, rest.head? = some c → esDigito c = false) →
      a.leer_numero =
        (⟨.REAL, .real (pyFloat (I ++ '.' :: F)), a.linea, a.columna⟩,
         ⟨a.texto, a.pos + (I.length + 1 + F.length), a.linea,
          a.columna + (I.length + 1 + F.length), a.tokens⟩)) ∧
    (∀ (a : AnalizadorLexico) (I rest : List Char),
      resto a = I ++ rest →
      (∀ c ∈ I, esDigito c = true) →
      (∀ c, rest.head? = some c → esDigito c = false) →
      (∀ d r, rest = '.' :: d :: r → esDigito d = false) →
      a.leer_numero =
        (⟨.ENTERO, .int (pyInt I), a.linea, a.columna⟩,
         ⟨a.texto, a.pos + I.length, a.linea, a.columna + I.length, a.tokens⟩)) ∧
    (∀ (t : List Char) (lxs : List LexemaNum), SoloNumeros t lxs →
      ∃ toks, analizarTexto t = .ok toks ∧
        List.Forall₂ (fun tok lx => tok.tipo = lx.tipo ∧ tok.valor = lx.valor) toks lxs) :=
  ⟨fun _ _ _ _ h1 h2 h3 h4 h5 => leer_numero_real h1 h2 h3 h4 h5,
   fun _ _ _ h1 h2 h3 h4 => leer_numero_entero h1 h2 h3 h4,
   fun _ _ h => analizarTexto_solo_numeros h⟩

theorem claim_C1_witness :
    (AnalizadorLexico.init ['3', '.', '5']).leer_numero =
      (⟨.REAL, .real (pyFloat (['3'] ++ '.' :: ['5'])), 1, 1⟩,
       ⟨['3', '.', '5'], 0 + (1 + 1 + 1), 1, 1 + (1 + 1 + 1), []⟩) ∧
    (AnalizadorLexico.init ['4', '2']).leer_numero =
      (⟨.ENTERO, .int (pyInt ['4', '2']), 1, 1⟩,
       ⟨['4', '2'], 0 + 2, 1, 1 + 2, []⟩) ∧
    ∃ toks, analizarTexto ['7', ' ', '2', '.', '5'] = .ok toks ∧
      List.Forall₂ (fun (tok : Token) (lx : LexemaNum) =>
          tok.tipo = lx.tipo ∧ tok.valor = lx.valor) toks
        [LexemaNum.entero ['7'], LexemaNum.real ['2'] ['5']] := by
  refine ⟨?_, ?_, ?_⟩
  · exact claim_C1_leer_numero.1 (AnalizadorLexico.init ['3', '.', '5']) ['3'] ['5'] []
      rfl (by decide) (by simp) (by decide) (fun c hc => absurd hc (by simp))
  · exact claim_C1_leer_numero.2.1 (AnalizadorLexico.init ['4', '2']) ['4', '2'] []
      (by simp [resto, AnalizadorLexico.init]) (by decide)
      (fun c hc => absurd hc (by simp)) (fun d r hr => absurd hr (by simp))
  · refine claim_C1_leer_numero.2.2 ['7', ' ', '2', '.', '5']
      [.entero ['7'], .real ['2'] ['5']] ?_
    have h0 : SoloNumeros [] [] := SoloNumeros.nil [] (by simp)
    have h1 : SoloNumeros ([' '] ++ (LexemaNum.real ['2'] ['5']).txt ++ [])
        [.real ['2'] ['5']] :=
      SoloNumeros.cons [' '] (by decide) (.real ['2'] ['5'])
        ⟨by simp, by simp, by decide, by decide⟩ [] []
        (fun c hc => absurd hc (by simp)) h0
    have h2 : SoloNumeros ([] ++ (LexemaNum.entero ['7']).txt ++
        ([' '] ++ (LexemaNum.real ['2'] ['5']).txt ++ [])) [.entero ['7'], .real ['2'] ['5']] :=
      SoloNumeros.cons [] (by simp) (.entero ['7']) ⟨by simp, by decide⟩
        ([' '] ++ (LexemaNum.real ['2'] ['5']).txt ++ [])
        [.real ['2'] ['5']] (sep_espacio (by decide)) h1
    exact h2

/-- C2: a scan fails with a lexical error exactly when the dispatch loop
reaches a character that is neither whitespace, an ASCII digit, nor an
ASCII letter or underscore; the error reports that character's value and
the line/column where it sits at the time of failure; otherwise the scan
returns a token sequence. On `"x = 1"` the scanner recognizes
`Identifier("x")` and then fails at `'='`, line 1, column 3. -/
theorem claim_C2_error_lexico :
    (∀ (t : List Char) (err : LexError), analizarTexto t = .error err →
      esEspacio err.caracter = false ∧ esDigito err.caracter = false ∧
      (esAlpha err.caracter || err.caracter == '_') = false ∧
      ∃ p, p < t.length ∧ t[p]? = some err.caracter ∧
        (err.linea, err.columna) = lineaColumnaEn t p) ∧
    (∀ (n : ℕ) (a : AnalizadorLexico) (c : Char), a.caracter_actual = some c →
      esEspacio c = false → esDigito c = false → (esAlpha c || c == '_') = false →
      AnalizadorLexico.analizar_fuel (n + 1) a = (some ⟨c, a.linea, a.columna⟩, a)) ∧
    (∀ t : List Char, (∃ toks, analizarTexto t = .ok toks) ∨
      (∃ err, analizarTexto t = .error err)) ∧
    analizarTexto ['x', ' ', '=', ' ', '1'] = .error ⟨'=', 1, 3⟩ ∧
    (AnalizadorLexico.init ['x', ' ', '=', ' ', '1']).analizar.2.tokens =
      [⟨.ID, .str ['x'], 1, 1⟩] := by
  refine ⟨?_, ?_, ?_, by rfl, by rfl⟩
  · intro t err h
    obtain ⟨p, hp1, hp2, hp3, hp4, hp5, hp6⟩ := analizarTexto_error_spec h
    exact ⟨hp4, hp5, hp6, p, hp1, hp2, hp3⟩
  · intro n a c hc h1 h2 h3
    exact analizar_fuel_paro hc h1 h2 h3
  · intro t
    cases hr : analizarTexto t with
    | ok toks => exact Or.inl ⟨toks, rfl⟩
    | error err => exact Or.inr ⟨err, rfl⟩

theorem claim_C2_witness :
    (esEspacio '=' = false ∧ esDigito '=' = false ∧
      (esAlpha '=' || '=' == '_') = false ∧
      ∃ p, p < (['x', ' ', '=', ' ', '1'] : List Char).length ∧
        (['x', ' ', '=', ' ', '1'] : List Char)[p]? = some '=' ∧
        ((1 : ℕ), (3 : ℕ)) = lineaColumnaEn ['x', ' ', '=', ' ', '1'] p) ∧
    AnalizadorLexico.analizar_fuel 1 ⟨['='], 0, 1, 1, []⟩ =
      (some ⟨'=', 1, 1⟩, ⟨['='], 0, 1, 1, []⟩) := by
  constructor
  · exact claim_C2_error_lexico.1 ['x', ' ', '=', ' ', '1'] ⟨'=', 1, 3⟩ (by rfl)
  · exact claim_C2_error_lexico.2.1 0 ⟨['='], 0, 1, 1, []⟩ '=' rfl (by decide) (by decide)
      (by decide)

/-- C3: every Identifier token's value is a nonempty string matching
`[A-Za-z_][A-Za-z0-9_]*`, and every Number token comes from a consumed
lexeme matching `[0-9]+(\.[0-9]+)?` occurring in the input; dispatch is
decided solely by the first character: a digit first character yields a
number (never an identifier), a letter or `_` yields an identifier whose
later characters may be digits. -/
theorem claim_C3_clases_lexemas :
    ∀ (t : List Char) (toks : List Token), analizarTexto t = .ok toks →
      ∀ tok ∈ toks,
        (tok.tipo = .ID → ∃ s, tok.valor = .str s ∧ s ≠ [] ∧ s <:+: t ∧
          (∀ c, s.head? = some c → (esAlpha c || c == '_') = true ∧ esDigito c = false) ∧
          (∀ c ∈ s, esIdent c = true)) ∧
        ((tok.tipo = .ENTERO ∨ tok.tipo = .REAL) → ∃ lex, lex ≠ [] ∧ lex <:+: t ∧
          (∀ c, lex.head? = some c → esDigito c = true) ∧
          ((tok.tipo = .ENTERO ∧ (∀ c ∈ lex, esDigito c = true) ∧
              tok.valor = .int (pyInt lex)) ∨
           (tok.tipo = .REAL ∧ ∃ I F, lex = I ++ '.' :: F ∧ I ≠ [] ∧ F ≠ [] ∧
              (∀ c ∈ I, esDigito c = true) ∧ (∀ c ∈ F, esDigito c = true) ∧
              tok.valor = .real (pyFloat lex)))) := by
  intro t toks h tok htk
  obtain ⟨ps, hF, _⟩ := analizarTexto_ok_spec h
  obtain ⟨p, hTE⟩ := forall₂_mem_right hF tok htk
  obtain ⟨hlc, lex, rest, hne, hdrop, hcase⟩ := hTE
  constructor
  · intro hid
    rcases hcase with ⟨he, _, _⟩ | ⟨I, F, he, _⟩ | ⟨_, hval, hall, hhead⟩
    · rw [hid] at he; cases he
    · rw [hid] at he; cases he
    · refine ⟨lex, hval, hne, infix_de_drop hdrop, ?_, hall⟩
      intro c hc
      exact ⟨hhead c hc, esInicioIdent_no_digito (hhead c hc)⟩
  · intro hnum
    rcases hcase with ⟨htipo, hval, hall⟩ | ⟨I, F, htipo, hval, he, hIne, hFne, hIdig, hFdig⟩ |
      ⟨htipo, _, _⟩
    · refine ⟨lex, hne, infix_de_drop hdrop, ?_, Or.inl ⟨htipo, hall, hval⟩⟩
      intro c hc
      rcases lex with _ | ⟨x, xs⟩
      · cases hc
      · simp only [List.head?_cons, Option.some.injEq] at hc
        rw [← hc]
        exact hall x (by simp)
    · refine ⟨lex, hne, infix_de_drop hdrop, ?_,
        Or.inr ⟨htipo, I, F, he, hIne, hFne, hIdig, hFdig, hval⟩⟩
      intro c hc
      obtain ⟨i0, I', rfl⟩ := List.exists_cons_of_ne_nil hIne
      rw [he] at hc
      simp only [List.cons_append, List.head?_cons, Option.some.injEq] at hc
      rw [← hc]
      exact hIdig i0 (by simp)
    · rcases hnum with hnum | hnum
      · rw [hnum] at htipo; cases htipo
      · rw [hnum] at htipo; cases htipo

theorem claim_C3_witness :
    ((⟨.ID, .str ['a', '1'], 1, 1⟩ : Token).tipo = .ID →
      ∃ s, (⟨.ID, .str ['a', '1'], 1, 1⟩ : Token).valor = .str s ∧ s ≠ [] ∧
        s <:+: ['a', '1', ' ', '2'] ∧
        (∀ c, s.head? = some c → (esAlpha c || c == '_') = true ∧ esDigito c = false) ∧
        (∀ c ∈ s, esIdent c = true)) ∧
    (((⟨.ENTERO, .int 2, 1, 4⟩ : Token).tipo = .ENTERO ∨
        (⟨.ENTERO, .int 2, 1, 4⟩ : Token).tipo = .REAL) →
      ∃ lex, lex ≠ [] ∧ lex <:+: ['a', '1', ' ', '2'] ∧
        (∀ c, lex.head? = some c → esDigito c = true) ∧
        (((⟨.ENTERO, .int 2, 1, 4⟩ : Token).tipo = .ENTERO ∧
            (∀ c ∈ lex, esDigito c = true) ∧
            (⟨.ENTERO, .int 2, 1, 4⟩ : Token).valor = .int (pyInt lex)) ∨
         ((⟨.ENTERO, .int 2, 1, 4⟩ : Token).tipo = .REAL ∧ ∃ I F, lex = I ++ '.' :: F ∧
            I ≠ [] ∧ F ≠ [] ∧ (∀ c ∈ I, esDigito c = true) ∧ (∀ c ∈ F, esDigito c = true) ∧
            (⟨.ENTERO, .int 2, 1, 4⟩ : Token).valor = .real (pyFloat lex)))) := by
  have hok : analizarTexto ['a', '1', ' ', '2'] =
      .ok [⟨.ID, .str ['a', '1'], 1, 1⟩, ⟨.ENTERO, .int 2, 1, 4⟩] := by rfl
  constructor
  · exact (claim_C3_clases_lexemas ['a', '1', ' ', '2'] _ hok
      ⟨.ID, .str ['a', '1'], 1, 1⟩ (by simp)).1
  · exact (claim_C3_clases_lexemas ['a', '1', ' ', '2'] _ hok
      ⟨.ENTERO, .int 2, 1, 4⟩ (by simp)).2

/-- C4: the position counters start at (1,1); `avanzar` increments the
line and resets the column to 1 when consuming a newline, and otherwise
increments the column by 1; every emitted token carries the 1-based
line/column coordinates of its first character: `TokenEn` anchors each
token to an offset `p` at which its own lexeme starts in the text and
whose coordinates its `linea`/`columna` fields record; `"ab\ncd"`
yields `Identifier("ab")` at line 1 column 1 and `Identifier("cd")` at
line 2 column 1. -/
theorem claim_C4_posiciones :
    (∀ t : List Char, (AnalizadorLexico.init t).linea = 1 ∧
      (AnalizadorLexico.init t).columna = 1) ∧
    (∀ (a : AnalizadorLexico) (c : Char), a.caracter_actual = some c →
      a.avanzar = { a with
        pos := a.pos + 1
        linea := if c = '\n' then a.linea + 1 else a.linea
        columna := if c = '\n' then 1 else a.columna + 1 }) ∧
    (∀ (t : List Char) (toks : List Token), analizarTexto t = .ok toks →
      ∃ ps, List.Forall₂ (fun p tok => p < t.length ∧ TokenEn t p tok) ps toks) ∧
    analizarTexto ['a', 'b', '\n', 'c', 'd'] =
      .ok [⟨.ID, .str ['a', 'b'], 1, 1⟩, ⟨.ID, .str ['c', 'd'], 2, 1⟩] := by
  refine ⟨fun t => ⟨rfl, rfl⟩, ?_, ?_, by rfl⟩
  · intro a c hc
    rw [avanzar_some hc]
    unfold avanzaLC
    by_cases hnl : c = '\n' <;> simp [hnl]
  · intro t toks h
    obtain ⟨ps, hF, _⟩ := analizarTexto_ok_spec h
    exact ⟨ps, List.Forall₂.imp (fun p tok hpt => ⟨pos_lt_de_TokenEn hpt, hpt⟩) hF⟩

theorem claim_C4_witness :
    (AnalizadorLexico.init ['\n']).avanzar =
      { AnalizadorLexico.init ['\n'] with
        pos := 0 + 1
        linea := if '\n' = '\n' then 1 + 1 else 1
        columna := if '\n' = '\n' then 1 else 1 + 1 } ∧
    ∃ ps, List.Forall₂ (fun p (tok : Token) =>
        p < (['a', 'b', '\n', 'c', 'd'] : List Char).length ∧
        TokenEn ['a', 'b', '\n', 'c', 'd'] p tok) ps
      [⟨.ID, .str ['a', 'b'], 1, 1⟩, ⟨.ID, .str ['c', 'd'], 2, 1⟩] := by
  constructor
  · exact claim_C4_posiciones.2.1 (AnalizadorLexico.init ['\n']) '\n' rfl
  · exact claim_C4_posiciones.2.2.1 ['a', 'b', '\n', 'c', 'd'] _ claim_C4_posiciones.2.2.2

/-- C5: a `.` not immediately followed by a digit is never consumed by
`leer_numero` (the integer token ends before it, with the scanner left on
the dot) and the dispatch loop then fails on the `.`; input `"42."` scans
`Integer(42)` and then raises the lexical error at the unconsumed `.`,
line 1, column 3. -/
theorem claim_C5_punto_final :
    (∀ (a : AnalizadorLexico) (I r : List Char), resto a = I ++ '.' :: r →
      (∀ c ∈ I, esDigito c = true) →
      (∀ d rr, r = d :: rr → esDigito d = false) →
      a.leer_numero =
        (⟨.ENTERO, .int (pyInt I), a.linea, a.columna⟩,
         ⟨a.texto, a.pos + I.length, a.linea, a.columna + I.length, a.tokens⟩)) ∧
    (∀ (n : ℕ) (b : AnalizadorLexico), b.caracter_actual = some '.' →
      AnalizadorLexico.analizar_fuel (n + 1) b = (some ⟨'.', b.linea, b.columna⟩, b)) ∧
    (AnalizadorLexico.init ['4', '2', '.']).analizar =
      (.error ⟨'.', 1, 3⟩, ⟨['4', '2', '.'], 2, 1, 3, [⟨.ENTERO, .int 42, 1, 1⟩]⟩) := by
  refine ⟨?_, ?_, by rfl⟩
  · intro a I r hres hI hr
    refine leer_numero_entero hres hI ?_ ?_
    · intro c hc
      simp only [List.head?_cons, Option.some.injEq] at hc
      rw [← hc]
      decide
    · intro d rr hrr
      simp only [List.cons.injEq] at hrr
      exact hr d rr hrr.2
  · intro n b hb
    exact analizar_fuel_paro hb (by decide) (by decide) (by decide)

theorem claim_C5_witness :
    (AnalizadorLexico.init ['4', '2', '.']).leer_numero =
      (⟨.ENTERO, .int (pyInt ['4', '2']), 1, 1⟩,
       ⟨['4', '2', '.'], 0 + 2, 1, 1 + 2, []⟩) ∧
    AnalizadorLexico.analizar_fuel 1 ⟨['.'], 0, 1, 1, []⟩ =
      (some ⟨'.', 1, 1⟩, ⟨['.'], 0, 1, 1, []⟩) := by
  constructor
  · exact claim_C5_punto_final.1 (AnalizadorLexico.init ['4', '2', '.']) ['4', '2'] []
      rfl (by decide) (fun d rr h => absurd h (by simp))
  · exact claim_C5_punto_final.2.1 0 ⟨['.'], 0, 1, 1, []⟩ rfl

/-- C6: in any successful scan, each consecutive pair of tokens has
strictly increasing (line, column) start positions in document order. -/
theorem claim_C6_monotonia :
    ∀ (t : List Char) (toks : List Token), analizarTexto t = .ok toks →
      ∀ (i : ℕ) (h2 : i + 1 < toks.length),
        ordLC ((toks.get ⟨i, by omega⟩).linea, (toks.get ⟨i, by omega⟩).columna)
          ((toks.get ⟨i + 1, h2⟩).linea, (toks.get ⟨i + 1, h2⟩).columna) := by
  intro t toks h i h2
  obtain ⟨ps, hF, hP⟩ := analizarTexto_ok_spec h
  have hlen : ps.length = toks.length := hF.length_eq
  have hi : i < toks.length := by omega
  have hips : i < ps.length := by omega
  have hips2 : i + 1 < ps.length := by omega
  have hR1 : TokenEn t (ps.get ⟨i, hips⟩) (toks.get ⟨i, hi⟩) :=
    (List.forall₂_iff_get.mp hF).2 i hips hi
  have hR2 : TokenEn t (ps.get ⟨i + 1, hips2⟩) (toks.get ⟨i + 1, h2⟩) :=
    (List.forall₂_iff_get.mp hF).2 (i + 1) hips2 h2
  have hlt : ps.get ⟨i, hips⟩ < ps.get ⟨i + 1, hips2⟩ :=
    List.pairwise_iff_get.mp hP ⟨i, hips⟩ ⟨i + 1, hips2⟩ (by simp)
  have hbound : ps.get ⟨i + 1, hips2⟩ < t.length := pos_lt_de_TokenEn hR2
  have hcre := lineaColumnaEn_crece hlt (le_of_lt hbound)
  rw [hR1.1, hR2.1]
  exact hcre

theorem claim_C6_witness :
    ordLC ((1 : ℕ), (1 : ℕ)) ((1 : ℕ), (3 : ℕ)) := by
  have h2 : (1 : ℕ) + 1 ≤ ([⟨.ENTERO, .int 1, 1, 1⟩,
      ⟨.ENTERO, .int 2, 1, 3⟩] : List Token).length := by decide
  exact claim_C6_monotonia ['1', ' ', '2']
    [⟨.ENTERO, .int 1, 1, 1⟩, ⟨.ENTERO, .int 2, 1, 3⟩] (by rfl) 0 h2

/-- C7: scanning is a pure function of the input text: two fresh scanner
instances built on the same text produce identical results and end states,
and tokens already stored in the instance do not influence `analizar`,
which resets them. -/
theorem claim_C7_rescan :
    ∀ (t : List Char) (a1 a2 : AnalizadorLexico),
      a1 = AnalizadorLexico.init t → a2 = AnalizadorLexico.init t →
      a1.analizar = a2.analizar ∧
      (∀ tk : List Token,
        ({ a1 with tokens := tk } : AnalizadorLexico).analizar = a1.analizar) := by
  intro t a1 a2 h1 h2
  subst h1
  subst h2
  exact ⟨rfl, fun tk => rfl⟩

theorem claim_C7_witness :
    (AnalizadorLexico.init ['a']).analizar = (AnalizadorLexico.init ['a']).analizar ∧
    (∀ tk : List Token,
      ({ AnalizadorLexico.init ['a'] with tokens := tk } : AnalizadorLexico).analizar =
        (AnalizadorLexico.init ['a']).analizar) :=
  claim_C7_rescan ['a'] (AnalizadorLexico.init ['a']) (AnalizadorLexico.init ['a']) rfl rfl

/-- C8: scanning always terminates: each dispatch branch strictly advances
the cursor (whitespace skip, number read, and identifier read all consume
at least one character), the scan of any finite text yields a result,
success means the cursor reached end-of-input with the accumulated token
sequence returned, and an empty or all-whitespace input yields the empty
sequence. -/
theorem claim_C8_terminacion :
    (∀ (a : AnalizadorLexico) (c : Char), a.caracter_actual = some c →
      esEspacio c = true → a.pos < a.saltar_espacios.pos) ∧
    (∀ (a : AnalizadorLexico) (c : Char), a.caracter_actual = some c →
      esDigito c = true → a.pos < (a.leer_numero).2.pos) ∧
    (∀ (a : AnalizadorLexico) (c : Char), a.caracter_actual = some c →
      (esAlpha c || c == '_') = true → a.pos < (a.leer_identificador).2.pos) ∧
    (∀ t : List Char, ∃ r : Except LexError (List Token), analizarTexto t = r) ∧
    (∀ (t : List Char) (toks : List Token) (la : AnalizadorLexico),
      (AnalizadorLexico.init t).analizar = (.ok toks, la) →
      la.caracter_actual = none ∧ la.tokens = toks) ∧
    (∀ t : List Char, (∀ c ∈ t, esEspacio c = true) → analizarTexto t = .ok []) := by
  refine ⟨?_, ?_, ?_, fun t => ⟨analizarTexto t, rfl⟩, ?_, ?_⟩
  · intro a c hc hesp
    have h1 : 1 ≤ ((resto a).takeWhile esEspacio).length := by
      rw [resto_cons hc, List.takeWhile_cons_of_pos hesp]
      simp
    rw [saltar_espacios_spec]
    dsimp only
    omega
  · intro a c hc hd
    have h1 : 1 ≤ ((resto a).takeWhile esDigito).length := by
      rw [resto_cons hc, List.takeWhile_cons_of_pos hd]
      simp
    unfold AnalizadorLexico.leer_numero
    dsimp only
    rw [leer_mientras_spec]
    dsimp only
    split
    · split
      · rw [leer_mientras_spec]
        dsimp only
        have h2 := avanzar_pos_le
          (⟨a.texto, a.pos + ((resto a).takeWhile esDigito).length,
            (((resto a).takeWhile esDigito).foldl avanzaLC (a.linea, a.columna)).1,
            (((resto a).takeWhile esDigito).foldl avanzaLC (a.linea, a.columna)).2,
            a.tokens⟩ : AnalizadorLexico)
        dsimp only at h2
        omega
      · dsimp only
        omega
    · dsimp only
      omega
  · intro a c hc hini
    have h1 : 1 ≤ ((resto a).takeWhile esIdent).length := by
      rw [resto_cons hc, List.takeWhile_cons_of_pos (esInicioIdent_esIdent hini)]
      simp
    unfold AnalizadorLexico.leer_identificador
    dsimp only
    rw [leer_mientras_spec]
    dsimp only
    omega
  · intro t toks la h
    exact ⟨(analizar_init_ok_estado h).1, (analizar_init_ok_estado h).2.1⟩
  · intro t hall
    obtain ⟨toks, hok, hF⟩ := analizarTexto_solo_numeros (SoloNumeros.nil t hall)
    cases hF
    exact hok

theorem claim_C8_witness :
    (0 < (AnalizadorLexico.init [' ']).saltar_espacios.pos) ∧
    (0 < ((AnalizadorLexico.init ['7']).leer_numero).2.pos) ∧
    (0 < ((AnalizadorLexico.init ['x']).leer_identificador).2.pos) ∧
    (∃ r : Except LexError (List Token), analizarTexto [] = r) ∧
    ((⟨['a'], 1, 1, 2, [⟨.ID, .str ['a'], 1, 1⟩]⟩ :
        AnalizadorLexico).caracter_actual = none ∧
      (⟨['a'], 1, 1, 2, [⟨.ID, .str ['a'], 1, 1⟩]⟩ :
        AnalizadorLexico).tokens = [⟨.ID, .str ['a'], 1, 1⟩]) ∧
    analizarTexto [' '] = .ok [] := by
  refine ⟨?_, ?_, ?_, claim_C8_terminacion.2.2.2.1 [], ?_, ?_⟩
  · exact claim_C8_terminacion.1 (AnalizadorLexico.init [' ']) ' ' rfl (by decide)
  · exact claim_C8_terminacion.2.1 (AnalizadorLexico.init ['7']) '7' rfl (by decide)
  · exact claim_C8_terminacion.2.2.1 (AnalizadorLexico.init ['x']) 'x' rfl (by decide)
  · exact claim_C8_terminacion.2.2.2.2.1 ['a'] [⟨.ID, .str ['a'], 1, 1⟩]
      ⟨['a'], 1, 1, 2, [⟨.ID, .str ['a'], 1, 1⟩]⟩ (by rfl)
  · exact claim_C8_terminacion.2.2.2.2.2 [' '] (by decide)

/-- C9: after a successful `analizar`, a second `analizar` on the same
scanner instance returns the empty token sequence: the tokens field is
reset to empty, but `pos`, `linea` and `columna` are not reset, so the
cursor is still at end-of-input and the dispatch loop body never runs. -/
theorem claim_C9_segunda_llamada :
    ∀ (t : List Char) (toks : List Token) (la : AnalizadorLexico),
      (AnalizadorLexico.init t).analizar = (.ok toks, la) →
      la.analizar = (.ok [], { la with tokens := [] }) := by
  intro t toks la h
  exact analizar_al_final (analizar_init_ok_estado h).1

theorem claim_C9_witness :
    (⟨['a'], 1, 1, 2, [⟨.ID, .str ['a'], 1, 1⟩]⟩ : AnalizadorLexico).analizar =
      (.ok [], ⟨['a'], 1, 1, 2, []⟩) :=
  claim_C9_segunda_llamada ['a'] [⟨.ID, .str ['a'], 1, 1⟩]
    ⟨['a'], 1, 1, 2, [⟨.ID, .str ['a'], 1, 1⟩]⟩ (by rfl)

/-- C10: for a digit run of any length, the emitted Integer token's value
is the exact mathematical integer denoted by the decimal digits: integer
parsing is arbitrary-precision and never overflows or loses precision. -/
theorem claim_C10_precision (ds : List Char) (h1 : ds ≠ [])
    (h2 : ∀ c ∈ ds, esDigito c = true) :
    analizarTexto ds =
      .ok [⟨.ENTERO, .int (Nat.ofDigits 10 ((ds.map valorDigito).reverse)), 1, 1⟩] := by
  obtain ⟨d, tl, rfl⟩ := List.exists_cons_of_ne_nil h1
  have hd : esDigito d = true := h2 d (by simp)
  have hc : (AnalizadorLexico.init (d :: tl)).caracter_actual = some d := by
    simp [AnalizadorLexico.caracter_actual, AnalizadorLexico.init]
  have hln := @leer_numero_entero (AnalizadorLexico.init (d :: tl)) (d :: tl) []
    (by simp [resto, AnalizadorLexico.init]) h2
    (fun c hcx => absurd hcx (by simp)) (fun e r hr => absurd hr (by simp))
  have hfin : (⟨d :: tl, 0 + (d :: tl).length, 1, 1 + (d :: tl).length,
      ([] : List Token) ++ [⟨.ENTERO, .int (pyInt (d :: tl)), 1, 1⟩]⟩ :
      AnalizadorLexico).caracter_actual = none := by
    unfold AnalizadorLexico.caracter_actual
    apply List.getElem?_eq_none
    simp
  have hfuel : AnalizadorLexico.analizar_fuel ((d :: tl).length + 1)
      { AnalizadorLexico.init (d :: tl) with tokens := [] } =
      (none, ⟨d :: tl, 0 + (d :: tl).length, 1, 1 + (d :: tl).length,
        ([] : List Token) ++ [⟨.ENTERO, .int (pyInt (d :: tl)), 1, 1⟩]⟩) := by
    rw [show (d :: tl).length + 1 = (tl.length + 1) + 1 from by simp]
    rw [show ({ AnalizadorLexico.init (d :: tl) with tokens := [] } : AnalizadorLexico) =
        AnalizadorLexico.init (d :: tl) from rfl]
    rw [analizar_fuel_paso_digito hc hd]
    rw [hln]
    dsimp only [AnalizadorLexico.init]
    exact analizar_fuel_eoi hfin
  have hres := analizar_of_fuel_ok hfuel
  unfold analizarTexto
  rw [hres]
  dsimp only
  rw [pyInt_ofDigits]
  rfl

theorem claim_C10_witness :
    analizarTexto ['1', '2', '3'] =
      .ok [⟨.ENTERO, .int (Nat.ofDigits 10 (((['1', '2', '3'] : List Char).map
        valorDigito).reverse)), 1, 1⟩] :=
  claim_C10_precision ['1', '2', '3'] (by simp) (by decide)

